import Mathlib

/-!
Verification of the AI prediction engine in `src/lib/ai/predictors.ts`
(Neural pattern recognition, multi-step ensemble prediction, anomaly
detection, backtesting).

Modelling conventions:
* A digit observation is `Fin 10`; a digit sequence is `List (Fin 10)`.
* JavaScript numbers are modelled by exact rationals `ℚ`.  In the
  `AnomalyDetector`, where the source can divide by zero, numbers are
  modelled by `JSNum` (a rational together with `NaN` and `±Infinity`),
  so that the IEEE-754 special-value propagation of the source is
  reproduced exactly.
* `Array.prototype.sort` with a numeric comparator `(a, b) => k(b) - k(a)`
  is a stable descending sort by the key `k`; it is modelled by
  `List.insertionSort` with the relation `k b ≤ k a`, which is a stable
  sort placing higher keys first.
* A JavaScript `Map` is modelled as an association list (`Map` preserves
  insertion order); a map used only as a digit-indexed accumulator
  (`predictNext`'s weight map, where absent keys read as 0 via `|| 0`)
  is modelled as a total function `Fin 10 → ℚ` defaulting to 0.
-/

/-- A single digit observation (the last digit of a tick), `0–9`. -/
abbrev Digit := Fin 10

/-- Confidence buckets of a multi-step prediction
(source: `'very_high' | 'high' | 'medium' | 'low'`). -/
inductive ConfidenceLevel where
  | veryHigh
  | high
  | medium
  | low
deriving DecidableEq, Repr

/-- `interface Pattern` from the source. -/
structure Pattern where
  sequence : List Digit
  frequency : ℕ
  confidence : ℚ
  lastSeen : ℕ
  successRate : ℚ
deriving DecidableEq, Repr

/-- `interface MultiStepPrediction` from the source. -/
structure MultiStepPrediction where
  step : ℕ
  digit : Digit
  probability : ℚ
  confidence : ConfidenceLevel
  method : String
deriving DecidableEq, Repr

/-- Anomaly type tags (source: `'frequency' | 'volatility' | 'pattern' | 'distribution'`). -/
inductive AnomalyType where
  | frequency
  | volatility
  | pattern
  | distribution
deriving DecidableEq, Repr

/-- Severity levels (source: `'low' | 'medium' | 'high' | 'critical'`). -/
inductive Severity where
  | low
  | medium
  | high
  | critical
deriving DecidableEq, Repr

/-- `interface Anomaly` from the source.  The purely descriptive string
fields `description` and `recommendation` are not modelled; the digit in
`affectedDigits` is an integer because the source can put the `-1` of a
failed `indexOf` there. -/
structure Anomaly where
  type : AnomalyType
  severity : Severity
  affectedDigits : List ℤ
deriving DecidableEq, Repr

/-- `interface BacktestResult` from the source. -/
structure BacktestResult where
  accuracy : ℚ
  precision : ℚ
  /-- the source's `recall` field (`recall` is taken by a Mathlib command) -/
  recallMetric : ℚ
  f1Score : ℚ
  truePositives : ℕ
  falsePositives : ℕ
  trueNegatives : ℕ
  falseNegatives : ℕ
  profitLoss : ℚ
deriving DecidableEq, Repr

/-! ### Stable descending sort by a key

`arr.sort((a, b) => key(b) - key(a))` in the source is a stable sort
putting larger keys first.  `List.insertionSort` with `keyDescRel`
is such a sort: an element is inserted before the first element whose
key is `≤` its own, hence after all earlier elements with an equal key. -/

/-- `a` may precede `b` in a descending sort by `k`. -/
def keyDescRel {α β : Type} [LinearOrder β] (k : α → β) : α → α → Prop :=
  fun a b => k b ≤ k a

instance {α β : Type} [LinearOrder β] (k : α → β) : DecidableRel (keyDescRel k) :=
  fun a b => (inferInstance : Decidable (k b ≤ k a))

instance {α β : Type} [LinearOrder β] (k : α → β) : IsTotal α (keyDescRel k) :=
  ⟨fun a b => le_total (k b) (k a)⟩

instance {α β : Type} [LinearOrder β] (k : α → β) : IsTrans α (keyDescRel k) :=
  ⟨fun _ _ _ h1 h2 => le_trans h2 h1⟩

/-- Stable descending sort by the key `k`
(model of `sort((a, b) => k(b) - k(a))`). -/
def sortByKeyDesc {α β : Type} [LinearOrder β] (k : α → β) (l : List α) : List α :=
  l.insertionSort (keyDescRel k)

/-! ### Neural Pattern Recognizer (`class NeuralPatternRecognizer`)

The private `patterns: Map<string, Pattern>` is keyed by the joined digit
sequence; joining single digits with `','` is injective on digit lists, so
the key is modelled as the digit list itself.  A JS `Map` keeps insertion
order: an update (`existing.frequency++`) keeps the entry in place, a fresh
`set` appends at the end; the model mirrors this on an association list. -/

/-- The recognizer's pattern table (`Map<string, Pattern>`). -/
abbrev PatternTable := List (List Digit × Pattern)

/-- `this.patterns.get(key)` on the association list. -/
def tableGet : PatternTable → List Digit → Option Pattern
  | [], _ => none
  | e :: t, k => if e.1 = k then some e.2 else tableGet t k

/-- State of one `NeuralPatternRecognizer` instance. -/
structure NeuralPatternRecognizer where
  patterns : PatternTable
deriving DecidableEq, Repr

/-- A freshly constructed recognizer (`patterns` starts empty). -/
def NeuralPatternRecognizer.init : NeuralPatternRecognizer := ⟨[]⟩

/-- `private windowSizes = [2, 3, 4, 5]`. -/
def windowSizes : List ℕ := [2, 3, 4, 5]

/-- The update of an existing entry in `train`'s inner loop:
`existing.frequency++; existing.lastSeen = i`. -/
def bumpPattern (p : Pattern) (i : ℕ) : Pattern :=
  { p with frequency := p.frequency + 1, lastSeen := i }

/-- The fresh entry inserted by `train` for a new key. -/
def freshPattern (key : List Digit) (i : ℕ) : Pattern :=
  { sequence := key, frequency := 1, confidence := 0, lastSeen := i, successRate := 0 }

/-- The upsert in `train`'s inner loop: bump `frequency`/`lastSeen` of an
existing entry for `key`, otherwise append a fresh `Pattern`. -/
def trainUpsert (t : PatternTable) (key : List Digit) (i : ℕ) : PatternTable :=
  if (tableGet t key).isSome then
    t.map fun e => if e.1 = key then (e.1, bumpPattern e.2 i) else e
  else
    t ++ [(key, freshPattern key i)]

/-- The inner loop of `train` for one `windowSize`:
`for (let i = 0; i <= digits.length - windowSize; i++)` upserting
`digits.slice(i, i + windowSize)`.  (The JS loop body never runs when
`digits.length < windowSize`; `ℕ`-subtraction in `length + 1 - ws` gives
the same empty range.) -/
def trainWindow (digits : List Digit) (ws : ℕ) (t : PatternTable) : PatternTable :=
  (List.range (digits.length + 1 - ws)).foldl
    (fun t i => trainUpsert t ((digits.drop i).take ws) i) t

/-- The confidence recomputation pass at the end of `train`:
`recency = lastSeen / n * 100`, `frequency = frequency / n * 1000`,
`confidence = frequency * 0.6 + recency * 0.4`. -/
def confidencePass (t : PatternTable) (n : ℚ) : PatternTable :=
  t.map fun e =>
    (e.1, { e.2 with confidence :=
      ((e.2.frequency : ℚ) / n * 1000) * 0.6 + ((e.2.lastSeen : ℚ) / n * 100) * 0.4 })

/-- `train(digits)`. -/
def NeuralPatternRecognizer.train (R : NeuralPatternRecognizer) (digits : List Digit) :
    NeuralPatternRecognizer :=
  ⟨confidencePass (windowSizes.foldl (fun t ws => trainWindow digits ws t) R.patterns)
    (digits.length : ℚ)⟩

/-- `detectPatterns(recentDigits, minConfidence = 60)`.

The method only reads `this.patterns`; to make the absence of mutation a
provable statement rather than a convention, it is modelled in
state-passing style, threading the recognizer through every table access
and returning the (possibly changed) state beside the result. -/
def NeuralPatternRecognizer.detectPatterns (R : NeuralPatternRecognizer)
    (recentDigits : List Digit) (minConfidence : ℚ) :
    NeuralPatternRecognizer × List Pattern :=
  let st := windowSizes.foldl
    (fun (st : NeuralPatternRecognizer × List Pattern) ws =>
      if recentDigits.length < ws then st
      else
        let recentSequence := recentDigits.drop (recentDigits.length - ws)
        match tableGet st.1.patterns recentSequence with
        | some p => if minConfidence ≤ p.confidence then (st.1, st.2 ++ [p]) else st
        | none => st)
    (R, [])
  (st.1, sortByKeyDesc (fun p => p.confidence) st.2)

/-- `predictNext(recentDigits)`: accumulate, over every stored pattern whose
prefix (`sequence.slice(0, -1)`) equals the tail of `recentDigits`, the
pattern's confidence as weight for its final digit.  The returned
`Map<number, number>` (read with `|| 0`) is the function component;
state-passing as in `detectPatterns`. -/
def NeuralPatternRecognizer.predictNext (R : NeuralPatternRecognizer)
    (recentDigits : List Digit) : NeuralPatternRecognizer × (Digit → ℚ) :=
  R.patterns.foldl
    (fun (st : NeuralPatternRecognizer × (Digit → ℚ)) e =>
      let p := e.2
      let seqLength := p.sequence.length
      if recentDigits.length < seqLength - 1 then st
      else
        let recent := recentDigits.drop (recentDigits.length - (seqLength - 1))
        let prefixPart := p.sequence.dropLast
        if recent = prefixPart then
          let nextDigit := p.sequence.getLastD 0
          (st.1, fun d => if d = nextDigit then st.2 d + p.confidence else st.2 d)
        else st)
    (R, fun _ => 0)

/-! ### Multi-Step Predictor (`class MultiStepPredictor`) -/

/-- State of one `MultiStepPredictor` instance: the trained recognizer and
the 10×10 Markov matrix built at construction. -/
structure MultiStepPredictor where
  patternRecognizer : NeuralPatternRecognizer
  markovChain : Digit → Digit → ℚ

/-- The temporal-decay weight of the transition starting at index `i` in a
history of length `n`: `Math.pow(0.99, digits.length - 1 - i)`. -/
def decayWeight (n i : ℕ) : ℚ := (0.99 : ℚ) ^ (n - 1 - i)

/-- Accumulated decayed count of transitions `a → b`
(the `transitions[from][to] += weight` loop; `neuralWeights` receives the
identical sums). -/
def transCount (digits : List Digit) (a b : Digit) : ℚ :=
  ∑ i ∈ Finset.range (digits.length - 1),
    if digits.getD i 0 = a ∧ digits.getD (i + 1) 0 = b then decayWeight digits.length i else 0

/-- `row.reduce((sum, count) => sum + count, 0)` for row `a`. -/
def rowTotal (digits : List Digit) (a : Digit) : ℚ :=
  ∑ b : Digit, transCount digits a b

/-- `baseProb = total > 0 ? (count / total) * 100 : 0`. -/
def baseProb (digits : List Digit) (a b : Digit) : ℚ :=
  if 0 < rowTotal digits a then transCount digits a b / rowTotal digits a * 100 else 0

/-- `buildEnhancedMarkov(digits)`: per-cell
`Math.min(baseProb + neuralBoost, 100)` with `neuralBoost = weights / 10`. -/
def buildEnhancedMarkov (digits : List Digit) : Digit → Digit → ℚ :=
  fun a b => min (baseProb digits a b + transCount digits a b / 10) 100

/-- The `MultiStepPredictor` constructor: train a fresh recognizer on the
historical digits and build the Markov matrix from the same sequence. -/
def MultiStepPredictor.mk' (historicalDigits : List Digit) : MultiStepPredictor :=
  { patternRecognizer := NeuralPatternRecognizer.init.train historicalDigits
    markovChain := buildEnhancedMarkov historicalDigits }

/-- `private analyzeFrequency(digits)` of the predictor:
per digit, `count / total * 100` over `digits`. -/
def MultiStepPredictor.analyzeFrequency (digits : List Digit) : Digit → ℚ :=
  fun d => (digits.count d : ℚ) / (digits.length : ℚ) * 100

/-- The ensemble score of one digit at one step of `predictNextN`:
`patternScore * 0.5 + markovScore * 0.35 + freqScore * 0.15`, where the
pattern score is the accumulated prefix weight (0 when no pattern
matches, via `|| 0`), the Markov score is the matrix row of the working
sequence's last digit, and the frequency score is the digit's frequency
over the working sequence. -/
def ensembleScore (P : MultiStepPredictor) (currentDigits : List Digit)
    (digit : Digit) : ℚ :=
  (P.patternRecognizer.predictNext currentDigits).2 digit * 0.5 +
    P.markovChain (currentDigits.getLastD 0) digit * 0.35 +
    MultiStepPredictor.analyzeFrequency currentDigits digit * 0.15

/-- The ensemble entries built for one step of `predictNextN`, in digit
order 0–9 (the iteration order of `for (let digit = 0; digit < 10; ...)`
and hence the insertion order of the `ensemble` map). -/
def ensembleScores (P : MultiStepPredictor) (currentDigits : List Digit) :
    List (Digit × ℚ) :=
  (List.finRange 10).map fun digit => (digit, ensembleScore P currentDigits digit)

/-- The confidence bucket thresholds of `predictNextN`. -/
def confidenceBucket (score : ℚ) : ConfidenceLevel :=
  if 80 ≤ score then .veryHigh
  else if 65 ≤ score then .high
  else if 50 ≤ score then .medium
  else .low

/-- One iteration of the `predictNextN` loop: sort the ensemble entries
descending by score (`sort((a, b) => b[1] - a[1])`, stable), take
`sorted[0]`, classify its confidence.  The sorted list is never empty
(it has 10 entries), so the `headD` default is never read. -/
def stepPredict (P : MultiStepPredictor) (currentDigits : List Digit) (step : ℕ) :
    MultiStepPrediction :=
  let sorted := sortByKeyDesc (fun e => e.2) (ensembleScores P currentDigits)
  let best := sorted.headD (0, 0)
  { step := step
    digit := best.1
    probability := best.2
    confidence := confidenceBucket best.2
    method := "Ensemble (Pattern + Markov + Frequency)" }

/-- The loop of `predictNextN` for the remaining iterations
`step, step+1, …` (at most `remaining` of them): push the step's
prediction, append its digit to the working sequence, and
`break` once `confidence === 'low' && step >= 3`. -/
def predictLoop (P : MultiStepPredictor) :
    List Digit → ℕ → ℕ → List MultiStepPrediction
  | _, _, 0 => []
  | currentDigits, step, remaining + 1 =>
    let pred := stepPredict P currentDigits step
    if pred.confidence = .low ∧ 3 ≤ step then [pred]
    else pred :: predictLoop P (currentDigits ++ [pred.digit]) (step + 1) remaining

/-- `predictNextN(recentDigits, steps = 5)`. -/
def MultiStepPredictor.predictNextN (P : MultiStepPredictor)
    (recentDigits : List Digit) (steps : ℕ) : List MultiStepPrediction :=
  predictLoop P recentDigits 1 steps

/-! ### Backtesting Engine (`class BacktestingEngine`) -/

/-- The two trade strategies (`'match' | 'differ'`; `match` is a Lean
keyword, hence `matchDigit`). -/
inductive Strategy where
  | matchDigit
  | differ
deriving DecidableEq, Repr

/-- The running counters of the backtest loop:
`(truePositives, falsePositives, profitLoss)`.
(`trueNegatives` and `falseNegatives` are `const … = 0` in the source and
never change.) -/
abbrev BacktestState := ℕ × ℕ × ℚ

/-- The body of one backtest iteration, split on the returned prediction
list: skip (`continue`) when it is empty, otherwise score
`predictions[0].digit` against the ground truth under the strategy
(`match`: +0.95 / −1.0, `differ`: +0.9 / −1.0). -/
def backtestApply (strategy : Strategy) (actual : Digit) (st : BacktestState) :
    List MultiStepPrediction → BacktestState
  | [] => st
  | pr :: _ =>
    match strategy with
    | .matchDigit =>
      if pr.digit = actual then (st.1 + 1, st.2.1, st.2.2 + 0.95)
      else (st.1, st.2.1 + 1, st.2.2 - 1)
    | .differ =>
      if pr.digit ≠ actual then (st.1 + 1, st.2.1, st.2.2 + 0.9)
      else (st.1, st.2.1 + 1, st.2.2 - 1)

/-- One iteration of the backtest sliding-window loop at index `i`:
history is `testData.slice(0, i)`, ground truth `testData[i]`. -/
def backtestStep (P : MultiStepPredictor) (testData : List Digit) (strategy : Strategy)
    (st : BacktestState) (i : ℕ) : BacktestState :=
  backtestApply strategy (testData.getD i 0) st (P.predictNextN (testData.take i) 1)

/-- The indices scored by the loop
`for (let i = 50; i < testData.length - 1; i++)`. -/
def backtestIndices (testData : List Digit) : List ℕ :=
  List.range' 50 (testData.length - 51)

/-- `backtest(predictor, testData, strategy)`. -/
def backtest (P : MultiStepPredictor) (testData : List Digit) (strategy : Strategy) :
    BacktestResult :=
  let st := (backtestIndices testData).foldl (backtestStep P testData strategy) (0, 0, 0)
  let truePositives := st.1
  let falsePositives := st.2.1
  let trueNegatives : ℕ := 0
  let falseNegatives : ℕ := 0
  let total : ℚ := (truePositives : ℚ) + falsePositives + trueNegatives + falseNegatives
  let accuracy := ((truePositives : ℚ) + trueNegatives) / total * 100
  let precision := (truePositives : ℚ) / ((truePositives : ℚ) + falsePositives) * 100
  let recallV := (truePositives : ℚ) / ((truePositives : ℚ) + falseNegatives) * 100
  { accuracy := accuracy
    precision := precision
    recallMetric := recallV
    f1Score := 2 * precision * recallV / (precision + recallV)
    truePositives := truePositives
    falsePositives := falsePositives
    trueNegatives := trueNegatives
    falseNegatives := falseNegatives
    profitLoss := st.2.2 }

/-- The hit condition of a strategy: `match` wins on equality, `differ`
wins on inequality. -/
def strategyHit (strategy : Strategy) (predicted actual : Digit) : Bool :=
  match strategy with
  | .matchDigit => predicted = actual
  | .differ => predicted ≠ actual

/-- Specification-side view of one backtest iteration: `none` when the
iteration is skipped (no prediction), otherwise whether the strategy's
hit condition held at index `i` (history `testData.take i`, ground truth
`testData[i]`). -/
def scoredOutcome (P : MultiStepPredictor) (testData : List Digit) (strategy : Strategy)
    (i : ℕ) : Option Bool :=
  (P.predictNextN (testData.take i) 1).head?.map
    (fun pr => strategyHit strategy pr.digit (testData.getD i 0))

/-! ### Anomaly Detector (`class AnomalyDetector`)

The detector divides by quantities that can be zero (`digits.length`,
`baseline`), so its numbers are modelled by `JSNum`, IEEE-754 doubles with
exact rational finite values: `0/0 = NaN`, `x/0 = ±Infinity` for `x ≠ 0`,
`NaN` poisons arithmetic, and every `<`/`>` comparison involving `NaN` is
false.

The only obstacle to an exact model is `Math.sqrt` in `calculateStdDev`.
`detect` and `calibrate` use standard deviations solely inside order
comparisons, and `Math.sqrt` is monotone, so the model stores and compares
*variances* (the value before the square root): with
`cv = √cvar`, `bv = √bvar` (all nonnegative),
`|cv − bv| > 0.5 * bv  ↔  cvar > 2.25 * bvar ∨ cvar < 0.25 * bvar`, and
`|cv − bv| > bv  ↔  cvar > 4 * bvar`
(see the justification lemmas `sqrtHalfBand_iff_sq` and
`sqrtFullBand_iff_sq` below), while a `NaN` variance makes both sides of
each equivalence false. -/

/-- An IEEE-754 double with exact finite values. -/
inductive JSNum where
  | num (q : ℚ)
  | posInf
  | negInf
  | nan
deriving DecidableEq, Repr

/-- Double addition. -/
def JSNum.add : JSNum → JSNum → JSNum
  | nan, _ => nan
  | _, nan => nan
  | posInf, negInf => nan
  | negInf, posInf => nan
  | posInf, _ => posInf
  | _, posInf => posInf
  | negInf, _ => negInf
  | _, negInf => negInf
  | num a, num b => num (a + b)

/-- Double subtraction. -/
def JSNum.sub : JSNum → JSNum → JSNum
  | nan, _ => nan
  | _, nan => nan
  | posInf, posInf => nan
  | negInf, negInf => nan
  | posInf, _ => posInf
  | negInf, _ => negInf
  | _, posInf => negInf
  | _, negInf => posInf
  | num a, num b => num (a - b)

/-- Double multiplication. -/
def JSNum.mul : JSNum → JSNum → JSNum
  | nan, _ => nan
  | _, nan => nan
  | posInf, posInf => posInf
  | posInf, negInf => negInf
  | negInf, posInf => negInf
  | negInf, negInf => posInf
  | posInf, num b => if b = 0 then nan else if 0 < b then posInf else negInf
  | num a, posInf => if a = 0 then nan else if 0 < a then posInf else negInf
  | negInf, num b => if b = 0 then nan else if 0 < b then negInf else posInf
  | num a, negInf => if a = 0 then nan else if 0 < a then negInf else posInf
  | num a, num b => num (a * b)

/-- Double division (`0/0 = NaN`, `x/0 = ±∞` by the sign of `x`;
division by `+0` only, the model has no `-0`). -/
def JSNum.div : JSNum → JSNum → JSNum
  | nan, _ => nan
  | _, nan => nan
  | posInf, posInf => nan
  | posInf, negInf => nan
  | negInf, posInf => nan
  | negInf, negInf => nan
  | posInf, num b => if b < 0 then negInf else posInf
  | negInf, num b => if b < 0 then posInf else negInf
  | num _, posInf => num 0
  | num _, negInf => num 0
  | num a, num b =>
    if b = 0 then (if a = 0 then nan else if 0 < a then posInf else negInf)
    else num (a / b)

/-- `Math.abs`. -/
def JSNum.abs : JSNum → JSNum
  | nan => nan
  | posInf => posInf
  | negInf => posInf
  | num a => num |a|

/-- The `<` comparison of doubles (false whenever `NaN` is involved). -/
def JSNum.lt : JSNum → JSNum → Bool
  | nan, _ => false
  | _, nan => false
  | posInf, _ => false
  | _, posInf => true
  | negInf, negInf => false
  | negInf, _ => true
  | _, negInf => false
  | num a, num b => a < b

/-- The `>` comparison of doubles. -/
def JSNum.gt (a b : JSNum) : Bool := JSNum.lt b a

/-- Two-argument `Math.max` (`NaN` if either argument is `NaN`). -/
def JSNum.max2 : JSNum → JSNum → JSNum
  | nan, _ => nan
  | _, nan => nan
  | a, b => if JSNum.lt a b then b else a

/-- `Math.max(...values)` (the fold starts from `-Infinity`, as the
variadic `Math.max` does). -/
def JSNum.listMax (l : List JSNum) : JSNum := l.foldl JSNum.max2 negInf

/-- `values.indexOf(v)`: the first index whose element is strictly equal
(`===`) to `v`, else `-1`.  `NaN === NaN` is false, so looking up `NaN`
always yields `-1`. -/
def JSNum.indexOfAux (v : JSNum) : List JSNum → ℤ → ℤ
  | [], _ => -1
  | a :: t, i => if a = v ∧ v ≠ nan then i else JSNum.indexOfAux v t (i + 1)

/-- `values.indexOf(v)` proper. -/
def JSNum.indexOf (l : List JSNum) (v : JSNum) : ℤ := JSNum.indexOfAux v l 0

/-- State of one `AnomalyDetector` instance.  `baselineVariance` stores the
square of the source's `baselineVolatility` (see the section comment);
the initial values are `baselineFrequency = new Array(10).fill(10)` and
`baselineVolatility = 0`. -/
structure AnomalyDetector where
  baselineFrequency : Digit → JSNum
  baselineVariance : JSNum

/-- A freshly constructed detector. -/
def AnomalyDetector.init : AnomalyDetector :=
  { baselineFrequency := fun _ => .num 10, baselineVariance := .num 0 }

/-- `private analyzeFrequency(digits)` of the detector:
`(count / digits.length) * 100` per digit (NaN on an empty list). -/
def AnomalyDetector.analyzeFrequency (digits : List Digit) : Digit → JSNum :=
  fun d => ((JSNum.num (digits.count d)).div (JSNum.num digits.length)).mul (JSNum.num 100)

/-- The average of squared deviations from `mean` over the ten per-digit
values: `calculateStdDev(values, mean)` without the final `Math.sqrt`
(the variance; see the section comment). -/
def calculateVariance (values : Digit → JSNum) (mean : ℚ) : JSNum :=
  (((List.finRange 10).map fun d => (values d |>.sub (JSNum.num mean)).mul
      (values d |>.sub (JSNum.num mean))).foldl JSNum.add (JSNum.num 0)).div (JSNum.num 10)

/-- `calibrate(historicalDigits)`: per-digit baseline frequency
`(count / length) * 100` and the baseline volatility (stored squared). -/
def AnomalyDetector.calibrate (_A : AnomalyDetector) (historicalDigits : List Digit) :
    AnomalyDetector :=
  let freq : Digit → JSNum := fun d =>
    ((JSNum.num (historicalDigits.count d)).div (JSNum.num historicalDigits.length)).mul
      (JSNum.num 100)
  { baselineFrequency := freq, baselineVariance := calculateVariance freq 10 }

/-- The events reported by `detectUnusualPatterns` (the source renders
each as a string; the claims only count them). -/
inductive PatternEvent where
  | streak (length : ℕ) (d : Digit)
  | alternation (a b : Digit)
  | ascending (last4 : List Digit)
  | descending (last4 : List Digit)
deriving DecidableEq, Repr

/-- The streak scan of `detectUnusualPatterns`: walk indices `1 … n−1`
carrying `currentStreak`, emitting an event at every position where the
streak length reaches ≥ 5. -/
def streakEvents (digits : List Digit) : List PatternEvent :=
  ((List.range' 1 (digits.length - 1)).foldl
    (fun (st : ℕ × List PatternEvent) i =>
      if digits.getD i 0 = digits.getD (i - 1) 0 then
        let s := st.1 + 1
        (s, if 5 ≤ s then st.2 ++ [.streak s (digits.getD i 0)] else st.2)
      else (1, st.2))
    (1, [])).2

/-- `last4.every((d, i) => i === 0 || d === last4[i - 1] + 1)`. -/
def chainAscending : List Digit → Bool
  | [] => true
  | [_] => true
  | a :: b :: t => (b.val = a.val + 1 : Bool) && chainAscending (b :: t)

/-- `last4.every((d, i) => i === 0 || d === last4[i - 1] - 1)`
(JS number arithmetic: `0 - 1 = -1`, never a digit). -/
def chainDescending : List Digit → Bool
  | [] => true
  | [_] => true
  | a :: b :: t => (b.val + 1 = a.val : Bool) && chainDescending (b :: t)

/-- `private detectUnusualPatterns(digits)`: long streaks, a perfect
6-long alternation, and strictly ascending/descending last-4 runs. -/
def detectUnusualPatterns (digits : List Digit) : List PatternEvent :=
  let streaks := streakEvents digits
  let alt :=
    if 6 ≤ digits.length then
      let last6 := digits.drop (digits.length - 6)
      if last6.getD 0 0 = last6.getD 2 0 ∧ last6.getD 2 0 = last6.getD 4 0 ∧
          last6.getD 1 0 = last6.getD 3 0 ∧ last6.getD 3 0 = last6.getD 5 0 ∧
          last6.getD 0 0 ≠ last6.getD 1 0 then
        [.alternation (last6.getD 0 0) (last6.getD 1 0)]
      else []
    else []
  let runs :=
    if 4 ≤ digits.length then
      let last4 := digits.drop (digits.length - 4)
      (if chainAscending last4 then [.ascending last4] else []) ++
        (if chainDescending last4 then [.descending last4] else [])
    else []
  streaks ++ alt ++ runs

/-- `private calculateUniformity(frequencies)`:
`max(0, 1 - avgDeviation / ideal)` with `ideal = 10`. -/
def calculateUniformity (frequencies : Digit → JSNum) : JSNum :=
  let avgDeviation :=
    (((List.finRange 10).map fun d => (frequencies d |>.sub (JSNum.num 10)).abs).foldl
      JSNum.add (JSNum.num 0)).div (JSNum.num 10)
  (JSNum.num 0).max2 ((JSNum.num 1).sub (avgDeviation.div (JSNum.num 10)))

/-- `severityOrder = { critical: 4, high: 3, medium: 2, low: 1 }`. -/
def severityOrder : Severity → ℕ
  | .critical => 4
  | .high => 3
  | .medium => 2
  | .low => 1

/-- The anomaly list of `detect(recentDigits)` in detection (push) order,
before the final severity sort: frequency anomalies for digits 0–9, then
the volatility anomaly, then pattern anomalies, then the distribution
anomaly.  Volatility comparisons are in the squared domain (see the
section comment). -/
def detectPre (A : AnomalyDetector) (recentDigits : List Digit) : List Anomaly :=
  let currentFreq := AnomalyDetector.analyzeFrequency recentDigits
  let freqAnomalies := (List.finRange 10).filterMap fun digit =>
    let baseline := A.baselineFrequency digit
    let deviation := (currentFreq digit |>.sub baseline).abs
    let percentChange := (deviation.div baseline).mul (JSNum.num 100)
    if percentChange.gt (JSNum.num 50) then
      some { type := .frequency
             severity :=
               if percentChange.gt (JSNum.num 100) then .critical
               else if percentChange.gt (JSNum.num 75) then .high
               else .medium
             affectedDigits := [(digit.val : ℤ)] }
    else none
  let currentVariance := calculateVariance currentFreq 10
  let volAnomalies :=
    if (currentVariance.gt ((JSNum.num (9/4)).mul A.baselineVariance) ||
        currentVariance.lt ((JSNum.num (1/4)).mul A.baselineVariance)) then
      [{ type := .volatility
         severity :=
           if currentVariance.gt ((JSNum.num 4).mul A.baselineVariance) then .high
           else .medium
         affectedDigits := [] }]
    else []
  let patternAnomalies := (detectUnusualPatterns recentDigits).map fun _ =>
    { type := .pattern, severity := .medium, affectedDigits := ([] : List ℤ) }
  let freqList := (List.finRange 10).map currentFreq
  let uniformityScore := calculateUniformity currentFreq
  let distAnomalies :=
    if uniformityScore.lt (JSNum.num (7/10)) then
      [{ type := .distribution
         severity := if uniformityScore.lt (JSNum.num (1/2)) then .high else .medium
         affectedDigits := [JSNum.indexOf freqList (JSNum.listMax freqList)] }]
    else []
  freqAnomalies ++ volAnomalies ++ patternAnomalies ++ distAnomalies

/-- `detect(recentDigits)`: the detected anomalies sorted by descending
severity rank (stable). -/
def AnomalyDetector.detect (A : AnomalyDetector) (recentDigits : List Digit) : List Anomaly :=
  sortByKeyDesc (fun a => severityOrder a.severity) (detectPre A recentDigits)


/-! ### Specification-side helper: occurrences of a subsequence -/

/-- The (ascending) list of start indices at which `key` occurs as a
contiguous subsequence of `digits`; the index range matches `train`'s
window loop for `windowSize = key.length`. -/
def occList (digits key : List Digit) : List ℕ :=
  (List.range (digits.length + 1 - key.length)).filter
    (fun i => (digits.drop i).take key.length = key)

/-! ### Generic lemmas about the stable descending sort -/

-- The rational operations are `@[irreducible]` only to keep `simp` from
-- unfolding them; the concrete evaluations in the witnesses below need to
-- go through them.
attribute [local semireducible] Rat.add Rat.sub Rat.mul Rat.inv Rat.ofScientific

@[simp]
theorem keyDescRel_iff {α β : Type} [LinearOrder β] (k : α → β) (a b : α) :
    keyDescRel k a b ↔ k b ≤ k a :=
  Iff.rfl

theorem sorted_sortByKeyDesc {α β : Type} [LinearOrder β] (k : α → β) (l : List α) :
    List.Sorted (keyDescRel k) (sortByKeyDesc k l) :=
  List.sorted_insertionSort _ l

theorem perm_sortByKeyDesc {α β : Type} [LinearOrder β] (k : α → β) (l : List α) :
    List.Perm (sortByKeyDesc k l) l :=
  List.perm_insertionSort _ l

/-- Inserting `x` into `l` (descending by `k`) prepends `x` to the
`k = v` class when `k x = v` and leaves that class unchanged otherwise. -/
theorem filter_orderedInsert_key {α β : Type} [LinearOrder β] (k : α → β) (v : β)
    (x : α) (l : List α) :
    (l.orderedInsert (keyDescRel k) x).filter (fun a => k a = v) =
      if k x = v then x :: l.filter (fun a => k a = v)
      else l.filter (fun a => k a = v) := by
  induction l with
  | nil =>
    by_cases hxv : k x = v <;> simp [List.filter, hxv]
  | cons y t ih =>
    simp only [List.orderedInsert]
    by_cases hxy : keyDescRel k x y
    · rw [if_pos hxy]
      by_cases hxv : k x = v <;> simp [List.filter_cons, hxv]
    · rw [if_neg hxy]
      have hlt : k x < k y := lt_of_not_le hxy
      by_cases hxv : k x = v
      · have hyv : ¬ k y = v := fun hyv => absurd (hxv.trans hyv.symm) (ne_of_lt hlt)
        simp [List.filter_cons, hyv, ih, hxv]
      · simp [List.filter_cons, ih, hxv]

/-- Stability of the sort: each key class is preserved verbatim. -/
theorem filter_sortByKeyDesc_key {α β : Type} [LinearOrder β] (k : α → β) (v : β)
    (l : List α) :
    (sortByKeyDesc k l).filter (fun a => k a = v) = l.filter (fun a => k a = v) := by
  induction l with
  | nil => rfl
  | cons x t ih =>
    simp only [sortByKeyDesc, List.insertionSort] at ih ⊢
    rw [filter_orderedInsert_key, List.filter_cons]
    by_cases hxv : k x = v <;> simp [hxv, ih]

/-- If the first survivor of a filter is `a`, the original list splits as
`l1 ++ a :: l2` with the predicate false on all of `l1`. -/
theorem filter_head_split {α : Type} (q : α → Bool) :
    ∀ (l : List α) (a : α), (l.filter q).head? = some a →
      ∃ l1 l2, l = l1 ++ a :: l2 ∧ ∀ y ∈ l1, q y = false
  | [], a => by simp
  | x :: t, a => by
    intro h
    by_cases hx : q x = true
    · rw [List.filter_cons_of_pos hx] at h
      exact ⟨[], t, by simpa using (Option.some_injective _ h).symm ▸ rfl, by simp⟩
    · rw [List.filter_cons_of_neg hx] at h
      obtain ⟨l1, l2, rfl, hl1⟩ := filter_head_split q t a h
      exact ⟨x :: l1, l2, rfl, by
        intro y hy
        rcases List.mem_cons.mp hy with rfl | hy
        · exact Bool.not_eq_true _ ▸ (by simpa using hx)
        · exact hl1 y hy⟩

/-- The head of the descending sort has maximal key among the list's
elements. -/
theorem head_sortByKeyDesc_max {α β : Type} [LinearOrder β] (k : α → β)
    {l : List α} {c : α} {rest : List α} (h : sortByKeyDesc k l = c :: rest) :
    ∀ y ∈ l, k y ≤ k c := by
  intro y hy
  have hmem : y ∈ c :: rest := h ▸ (perm_sortByKeyDesc k l).symm.subset hy
  rcases List.mem_cons.mp hmem with rfl | hy'
  · exact le_refl _
  · have hs := sorted_sortByKeyDesc k l
    rw [h] at hs
    exact (List.rel_of_sorted_cons hs) y hy'

/-- Stability at the head: the head of the descending sort is the *first*
element of the original list attaining its key; everything before it in
the original list has a different (hence strictly smaller) key. -/
theorem head_sortByKeyDesc_first {α β : Type} [LinearOrder β] (k : α → β)
    {l : List α} {c : α} {rest : List α} (h : sortByKeyDesc k l = c :: rest) :
    ∃ l1 l2, l = l1 ++ c :: l2 ∧ ∀ y ∈ l1, k y ≠ k c := by
  have hfilter : (l.filter (fun a => k a = k c)).head? = some c := by
    rw [← filter_sortByKeyDesc_key k (k c) l, h, List.filter_cons_of_pos (by simp)]
    rfl
  obtain ⟨l1, l2, rfl, hl1⟩ := filter_head_split _ l c hfilter
  exact ⟨l1, l2, rfl, fun y hy => by simpa using hl1 y hy⟩

/-! ### Claim C6: anomaly output ordering -/

theorem severityOrder_inj {s t : Severity} (h : severityOrder s = severityOrder t) : s = t := by
  cases s <;> cases t <;> first | rfl | exact absurd h (by decide)

/-- C6: for every `recentDigits` input, the list returned by
`AnomalyDetector.detect` is sorted by descending severity rank
(critical=4, high=3, medium=2, low=1) — in particular no `medium` anomaly
precedes a `critical` or `high` one — and anomalies of equal severity keep
their detection (push) order. -/
theorem c6_detect_sorted_by_severity (A : AnomalyDetector) (recentDigits : List Digit) :
    List.Sorted (fun a b : Anomaly => severityOrder b.severity ≤ severityOrder a.severity)
      (A.detect recentDigits) ∧
    ∀ s : Severity,
      (A.detect recentDigits).filter (fun a => a.severity = s) =
        (detectPre A recentDigits).filter (fun a => a.severity = s) := by
  constructor
  · exact sorted_sortByKeyDesc (fun a : Anomaly => severityOrder a.severity) _
  · intro s
    have h := filter_sortByKeyDesc_key (fun a : Anomaly => severityOrder a.severity)
      (severityOrder s) (detectPre A recentDigits)
    have hpred : ∀ (l : List Anomaly),
        l.filter (fun a => severityOrder a.severity = severityOrder s) =
          l.filter (fun a => a.severity = s) := by
      intro l
      apply List.filter_congr
      intro a _
      by_cases hs : a.severity = s
      · simp [hs]
      · have hs' : ¬ severityOrder a.severity = severityOrder s :=
          fun h => hs (severityOrder_inj h)
        simp [hs, hs']
    rw [← hpred, ← hpred]
    exact h

/-! ### Claim C10: `detectPatterns` and `predictNext` are read-only -/

theorem foldl_fst_invariant {α σ ρ : Type} (f : σ × ρ → α → σ × ρ)
    (hf : ∀ st a, (f st a).1 = st.1) :
    ∀ (l : List α) (init : σ × ρ), (l.foldl f init).1 = init.1
  | [], _ => rfl
  | a :: t, init => by
    rw [List.foldl_cons, foldl_fst_invariant f hf t (f init a), hf]

/-- C10: `detectPatterns` and `predictNext` are read-only queries — for
every recognizer state and input they return the recognizer state exactly
unchanged (hence every stored pattern's `frequency`, `confidence`,
`lastSeen` and the set of keys are unchanged); only `train` produces a new
state. -/
theorem c10_queries_leave_recognizer_unchanged (R : NeuralPatternRecognizer)
    (recentDigits : List Digit) (minConfidence : ℚ) :
    (R.detectPatterns recentDigits minConfidence).1 = R ∧
    (R.predictNext recentDigits).1 = R ∧
    (∀ key, tableGet (R.detectPatterns recentDigits minConfidence).1.patterns key =
      tableGet R.patterns key) ∧
    (∀ key, tableGet (R.predictNext recentDigits).1.patterns key =
      tableGet R.patterns key) := by
  have hdet : (R.detectPatterns recentDigits minConfidence).1 = R := by
    show (windowSizes.foldl _ (R, ([] : List Pattern))).1 = R
    apply foldl_fst_invariant
    intro st ws
    dsimp only []
    split
    · rfl
    · split
      · split <;> rfl
      · rfl
  have hpred : (R.predictNext recentDigits).1 = R := by
    apply foldl_fst_invariant
    intro st e
    dsimp only []
    split
    · rfl
    · split <;> rfl
  exact ⟨hdet, hpred, fun key => by rw [hdet], fun key => by rw [hpred]⟩

/-! ### Claim C7: Markov row sums and cell cap -/

theorem decayWeight_pos (n i : ℕ) : 0 < decayWeight n i := by
  have : (0 : ℚ) < 0.99 := by norm_num
  exact pow_pos this _

/-- The row total collapses to a sum over transition start indices. -/
theorem rowTotal_eq_sum_starts (digits : List Digit) (a : Digit) :
    rowTotal digits a =
      ∑ i ∈ Finset.range (digits.length - 1),
        if digits.getD i 0 = a then decayWeight digits.length i else 0 := by
  rw [rowTotal]
  unfold transCount
  rw [Finset.sum_comm]
  apply Finset.sum_congr rfl
  intro i _
  rw [Finset.sum_congr rfl (fun b _ => ite_and (digits.getD i 0 = a)
    (digits.getD (i + 1) 0 = b) (decayWeight digits.length i) 0)]
  by_cases h : digits.getD i 0 = a
  · simp only [if_pos h]
    rw [Finset.sum_ite_eq (Finset.univ : Finset Digit) (digits.getD (i + 1) 0)
      (fun _ => decayWeight digits.length i)]
    simp
  · simp [h]

theorem rowTotal_pos (digits : List Digit) (d : Digit)
    (h : ∃ i, i + 1 < digits.length ∧ digits.getD i 0 = d) :
    0 < rowTotal digits d := by
  obtain ⟨i, hi, hd⟩ := h
  rw [rowTotal_eq_sum_starts]
  apply Finset.sum_pos'
  · intro j _
    split
    · exact le_of_lt (decayWeight_pos _ _)
    · exact le_refl 0
  · refine ⟨i, Finset.mem_range.mpr (by omega), ?_⟩
    rw [if_pos hd]
    exact decayWeight_pos _ _

/-- C7: for every history and every digit `d` with at least one outgoing
transition in that history, the raw pre-boost transition probabilities of
Markov row `d` (`decayed count / row total * 100`) sum to exactly 100,
and every final cell of the built matrix is at most 100. -/
theorem c7_markov_row_base_sum (digits : List Digit) (d : Digit)
    (h : ∃ i, i + 1 < digits.length ∧ digits.getD i 0 = d) :
    (∑ b : Digit, baseProb digits d b) = 100 ∧
    ∀ a b : Digit, buildEnhancedMarkov digits a b ≤ 100 := by
  have ht : 0 < rowTotal digits d := rowTotal_pos digits d h
  constructor
  · have hcell : ∀ b : Digit, baseProb digits d b =
        transCount digits d b * 100 / rowTotal digits d := by
      intro b
      rw [baseProb, if_pos ht, div_mul_eq_mul_div]
    rw [Finset.sum_congr rfl (fun b _ => hcell b), ← Finset.sum_div, ← Finset.sum_mul]
    rw [show (∑ b : Digit, transCount digits d b) = rowTotal digits d from rfl]
    field_simp
  · intro a b
    exact min_le_right _ _

/-- Witness for C7 at the concrete history `[0, 1]` and digit `0`. -/
theorem c7_markov_row_base_sum_witness :
    (∑ b : Digit, baseProb [0, 1] 0 b) = 100 :=
  (c7_markov_row_base_sum [0, 1] 0 ⟨0, by norm_num, rfl⟩).1

/-! ### Claim C5: divide-by-zero behaviour of `detect` -/

@[simp] theorem JSNum.nan_sub (x : JSNum) : JSNum.nan.sub x = JSNum.nan := by
  cases x <;> rfl

@[simp] theorem JSNum.sub_nan (x : JSNum) : x.sub JSNum.nan = JSNum.nan := by
  cases x <;> rfl

@[simp] theorem JSNum.nan_add (x : JSNum) : JSNum.nan.add x = JSNum.nan := by
  cases x <;> rfl

@[simp] theorem JSNum.add_nan (x : JSNum) : x.add JSNum.nan = JSNum.nan := by
  cases x <;> rfl

@[simp] theorem JSNum.nan_mul (x : JSNum) : JSNum.nan.mul x = JSNum.nan := by
  cases x <;> rfl

@[simp] theorem JSNum.nan_div (x : JSNum) : JSNum.nan.div x = JSNum.nan := by
  cases x <;> rfl

@[simp] theorem JSNum.abs_nan : JSNum.nan.abs = JSNum.nan := rfl

@[simp] theorem JSNum.nan_lt (x : JSNum) : JSNum.nan.lt x = false := by
  cases x <;> rfl

@[simp] theorem JSNum.lt_nan (x : JSNum) : x.lt JSNum.nan = false := by
  cases x <;> rfl

@[simp] theorem JSNum.max2_nan (x : JSNum) : x.max2 JSNum.nan = JSNum.nan := by
  cases x <;> rfl

@[simp] theorem JSNum.sub_num_num (a b : ℚ) :
    (JSNum.num a).sub (JSNum.num b) = JSNum.num (a - b) := rfl

@[simp] theorem JSNum.add_num_num (a b : ℚ) :
    (JSNum.num a).add (JSNum.num b) = JSNum.num (a + b) := rfl

@[simp] theorem JSNum.mul_num_num (a b : ℚ) :
    (JSNum.num a).mul (JSNum.num b) = JSNum.num (a * b) := rfl

@[simp] theorem JSNum.abs_num (a : ℚ) : (JSNum.num a).abs = JSNum.num |a| := rfl

theorem JSNum.div_num_num (a b : ℚ) :
    (JSNum.num a).div (JSNum.num b) =
      if b = 0 then (if a = 0 then JSNum.nan else if 0 < a then JSNum.posInf else JSNum.negInf)
      else JSNum.num (a / b) := rfl

@[simp] theorem JSNum.num_lt_posInf (a : ℚ) : (JSNum.num a).lt JSNum.posInf = true := rfl

@[simp] theorem JSNum.posInf_mul_num (b : ℚ) :
    JSNum.posInf.mul (JSNum.num b) =
      if b = 0 then JSNum.nan else if 0 < b then JSNum.posInf else JSNum.negInf := rfl

/-- On the empty input every per-digit frequency is `0 / 0 = NaN`. -/
theorem analyzeFrequency_nil : AnomalyDetector.analyzeFrequency [] = fun _ => JSNum.nan := by
  funext d
  rfl

theorem calculateVariance_nan : calculateVariance (fun _ => JSNum.nan) 10 = JSNum.nan := rfl

theorem calculateUniformity_nan : calculateUniformity (fun _ => JSNum.nan) = JSNum.nan := rfl

/-- With an empty input, every check of `detect` compares against `NaN`
and comes out false, so no anomaly is produced — for any detector state. -/
theorem detect_nil (A : AnomalyDetector) : A.detect [] = [] := by
  have hpre : detectPre A [] = [] := by
    rw [detectPre]
    simp only [analyzeFrequency_nil, calculateVariance_nan, calculateUniformity_nan]
    simp [List.filterMap_eq_nil_iff, JSNum.gt, detectUnusualPatterns, streakEvents]
  rw [AnomalyDetector.detect, hpre]
  rfl

/-- A digit with zero baseline frequency but a positive current count gets
an Infinity-derived `critical` frequency anomaly (silently, not an
error). -/
theorem detect_zero_baseline_critical (A : AnomalyDetector) (recentDigits : List Digit)
    (d : Digit) (hne : recentDigits ≠ []) (hb : A.baselineFrequency d = JSNum.num 0)
    (hc : 0 < recentDigits.count d) :
    (Anomaly.mk .frequency .critical [(d.val : ℤ)]) ∈ A.detect recentDigits := by
  have hlen0 : recentDigits.length ≠ 0 := fun h => hne (List.length_eq_zero.mp h)
  have hlen : ((recentDigits.length : ℚ)) ≠ 0 := Nat.cast_ne_zero.mpr hlen0
  have hlenpos : (0 : ℚ) < (recentDigits.length : ℚ) := by
    exact_mod_cast Nat.pos_of_ne_zero hlen0
  have hcq : (0 : ℚ) < (recentDigits.count d : ℚ) := by exact_mod_cast hc
  have hf : AnomalyDetector.analyzeFrequency recentDigits d =
      JSNum.num ((recentDigits.count d : ℚ) / (recentDigits.length : ℚ) * 100) := by
    rw [AnomalyDetector.analyzeFrequency, JSNum.div_num_num, if_neg hlen, JSNum.mul_num_num]
  have hfpos : (0 : ℚ) < (recentDigits.count d : ℚ) / (recentDigits.length : ℚ) * 100 :=
    mul_pos (div_pos hcq hlenpos) (by norm_num)
  rw [AnomalyDetector.detect, List.Perm.mem_iff (perm_sortByKeyDesc _ _), detectPre]
  simp only [List.mem_append]
  refine Or.inl (Or.inl (Or.inl ?_))
  rw [List.mem_filterMap]
  refine ⟨d, List.mem_finRange d, ?_⟩
  rw [hb, hf]
  simp only [JSNum.sub_num_num, JSNum.abs_num, sub_zero, abs_of_pos hfpos,
    JSNum.div_num_num, if_pos rfl, if_neg (ne_of_gt hfpos), if_pos hfpos,
    JSNum.posInf_mul_num]
  norm_num [JSNum.gt]

/-- C5 counterexample: `detect` does **not** fail fast on inputs whose
frequency/volatility calculations divide by zero.  On an empty
`recentDigits` (division `0/0`) it silently returns the empty anomaly
list — no insufficient-data condition is signalled — and on a calibrated
detector with a zero baseline frequency for digit 2 it silently returns
Infinity-derived results (a `critical` frequency anomaly produced by
`deviation / 0 = Infinity`). -/
theorem c5_counterexample :
    AnomalyDetector.init.detect [] = [] ∧
    (AnomalyDetector.init.calibrate [0, 1]).detect [2, 2] =
      [⟨.frequency, .critical, [2]⟩, ⟨.frequency, .high, [0]⟩,
       ⟨.frequency, .high, [1]⟩, ⟨.distribution, .high, [2]⟩] := by
  constructor
  · exact detect_nil _
  · decide

/-- C5 (amended): `AnomalyDetector.detect` never signals an
insufficient-data condition.  On inputs where a frequency or volatility
calculation divides by zero it proceeds silently with the IEEE-754
special values: with empty `recentDigits` the `NaN`s make every anomaly
check false and `detect` returns `[]` for every detector state, and for
any digit whose baseline frequency is zero but whose current frequency is
positive, the infinite percent change is reported as an ordinary
`critical` frequency anomaly. -/
theorem c5_amended_no_fail_fast :
    (∀ A : AnomalyDetector, A.detect [] = []) ∧
    (∀ (A : AnomalyDetector) (recentDigits : List Digit) (d : Digit),
      recentDigits ≠ [] → A.baselineFrequency d = JSNum.num 0 →
      0 < recentDigits.count d →
      (Anomaly.mk .frequency .critical [(d.val : ℤ)]) ∈ A.detect recentDigits) :=
  ⟨detect_nil, detect_zero_baseline_critical⟩

/-- Witness for the amended C5 at concrete inputs: the detector calibrated
on `[0, 1]` has baseline frequency 0 for digit 2, and detecting on
`[2, 2]` yields the critical frequency anomaly for digit 2. -/
theorem c5_amended_no_fail_fast_witness :
    AnomalyDetector.init.detect [] = [] ∧
    (Anomaly.mk .frequency .critical [2]) ∈
      (AnomalyDetector.init.calibrate [0, 1]).detect [2, 2] :=
  ⟨c5_amended_no_fail_fast.1 AnomalyDetector.init,
   c5_amended_no_fail_fast.2 (AnomalyDetector.init.calibrate [0, 1]) [2, 2] 2
     (by decide) (by decide) (by decide)⟩

/-! ### Claims C1 and C9: shape of the `predictNextN` loop output -/

theorem stepPredict_step (P : MultiStepPredictor) (cur : List Digit) (s : ℕ) :
    (stepPredict P cur s).step = s := rfl

theorem predictLoop_ne_nil (P : MultiStepPredictor) (cur : List Digit) (s r : ℕ)
    (hr : 1 ≤ r) : predictLoop P cur s r ≠ [] := by
  match r, hr with
  | r + 1, _ =>
    rw [predictLoop]
    split <;> simp

theorem predictLoop_step_eq (P : MultiStepPredictor) :
    ∀ (r : ℕ) (cur : List Digit) (s j : ℕ) (p : MultiStepPrediction),
      (predictLoop P cur s r).get? j = some p → p.step = s + j
  | 0, cur, s, j, p => by simp [predictLoop]
  | r + 1, cur, s, j, p => by
    rw [predictLoop]
    by_cases h : (stepPredict P cur s).confidence = ConfidenceLevel.low ∧ 3 ≤ s
    · rw [if_pos h]
      match j with
      | 0 =>
        intro hp
        rw [← Option.some_inj.mp hp, stepPredict_step, Nat.add_zero]
      | j + 1 => simp
    · rw [if_neg h]
      match j with
      | 0 =>
        intro hp
        rw [← Option.some_inj.mp hp, stepPredict_step, Nat.add_zero]
      | j + 1 =>
        intro hp
        have := predictLoop_step_eq P r (cur ++ [(stepPredict P cur s).digit]) (s + 1) j p
          (by simpa using hp)
        omega

theorem predictLoop_mem_step_ge (P : MultiStepPredictor) :
    ∀ (r : ℕ) (cur : List Digit) (s : ℕ) (p : MultiStepPrediction),
      p ∈ predictLoop P cur s r → s ≤ p.step
  | 0, cur, s, p => by simp [predictLoop]
  | r + 1, cur, s, p => by
    rw [predictLoop]
    by_cases h : (stepPredict P cur s).confidence = ConfidenceLevel.low ∧ 3 ≤ s
    · rw [if_pos h]
      intro hp
      rcases List.mem_singleton.mp hp with rfl
      exact le_of_eq (stepPredict_step P cur s).symm
    · rw [if_neg h]
      intro hp
      rcases List.mem_cons.mp hp with rfl | hp
      · exact le_of_eq (stepPredict_step P cur s).symm
      · exact le_trans (Nat.le_succ s)
          (predictLoop_mem_step_ge P r (cur ++ [(stepPredict P cur s).digit]) (s + 1) p hp)

/-- Once a `low`-confidence prediction is emitted at a step ≥ 3, the loop
breaks: that prediction is the last one. -/
theorem predictLoop_low_breaks (P : MultiStepPredictor) :
    ∀ (r : ℕ) (cur : List Digit) (s : ℕ) (p : MultiStepPrediction),
      p ∈ predictLoop P cur s r → p.confidence = ConfidenceLevel.low → 3 ≤ p.step →
      (predictLoop P cur s r).length + s = p.step + 1
  | 0, cur, s, p => by simp [predictLoop]
  | r + 1, cur, s, p => by
    rw [predictLoop]
    by_cases h : (stepPredict P cur s).confidence = ConfidenceLevel.low ∧ 3 ≤ s
    · rw [if_pos h]
      intro hp _ _
      rcases List.mem_singleton.mp hp with rfl
      rw [stepPredict_step, List.length_singleton]
      omega
    · rw [if_neg h]
      intro hp hlow hge
      rcases List.mem_cons.mp hp with rfl | hp
      · rw [stepPredict_step] at hge
        exact absurd ⟨hlow, hge⟩ h
      · have := predictLoop_low_breaks P r (cur ++ [(stepPredict P cur s).digit]) (s + 1) p
          hp hlow hge
        rw [List.length_cons]
        omega

/-- C1: for every non-empty `recentDigits` and requested `steps`, if a
prediction with `low` confidence is emitted at a step ≥ 3, it is the last
one — the returned list has exactly that many elements — and in
particular if step 3's confidence bucket is `low` the returned list has
length at most 3 regardless of `steps`. -/
theorem c1_low_confidence_early_exit (P : MultiStepPredictor) (recentDigits : List Digit)
    (steps : ℕ) (_hne : recentDigits ≠ []) :
    (∀ p ∈ P.predictNextN recentDigits steps, p.confidence = ConfidenceLevel.low →
      3 ≤ p.step → (P.predictNextN recentDigits steps).length = p.step) ∧
    (∀ p ∈ P.predictNextN recentDigits steps, p.step = 3 →
      p.confidence = ConfidenceLevel.low →
      (P.predictNextN recentDigits steps).length ≤ 3) := by
  have key : ∀ p ∈ P.predictNextN recentDigits steps,
      p.confidence = ConfidenceLevel.low → 3 ≤ p.step →
      (P.predictNextN recentDigits steps).length = p.step := by
    intro p hp hlow hge
    have := predictLoop_low_breaks P steps recentDigits 1 p hp hlow hge
    rw [MultiStepPredictor.predictNextN]
    omega
  refine ⟨key, fun p hp hstep hlow => ?_⟩
  rw [key p hp hlow (by omega), hstep]

/-- Witness for C1: the predictor built from the history `[0, 1]` asked
for 5 steps on `recentDigits = [5]` emits `low` confidence from step 1 on
and stops after step 3. -/
theorem c1_low_confidence_early_exit_witness :
    ((MultiStepPredictor.mk' [0, 1]).predictNextN [5] 5).length = 3 :=
  (c1_low_confidence_early_exit (MultiStepPredictor.mk' [0, 1]) [5] 5 (by decide)).1
    { step := 3, digit := 5, probability := 15, confidence := .low,
      method := "Ensemble (Pattern + Markov + Frequency)" }
    (by decide) (by decide) (by decide)

/-- C9: for every non-empty `recentDigits` (digits 0–9 by type) and every
`steps ≥ 1`, `predictNextN` returns at least one prediction, every
returned prediction's digit lies in 0–9 and the `step` fields are
numbered consecutively from 1; consequently the `backtest` branch that
skips an iteration when the predictor returns no prediction
(`scoredOutcome = none`) is never taken, the warm-up history
`testData.take i` (`i ≥ 50`) being non-empty for every scored index. -/
theorem c9_predictNextN_wellformed (P : MultiStepPredictor) (recentDigits : List Digit)
    (steps : ℕ) (_hne : recentDigits ≠ []) (hsteps : 1 ≤ steps) :
    1 ≤ (P.predictNextN recentDigits steps).length ∧
    (∀ (j : ℕ) (p : MultiStepPrediction),
      (P.predictNextN recentDigits steps).get? j = some p → p.step = j + 1) ∧
    (∀ p ∈ P.predictNextN recentDigits steps, p.digit.val ≤ 9) ∧
    (∀ (Q : MultiStepPredictor) (testData : List Digit) (strategy : Strategy) (i : ℕ),
      i ∈ backtestIndices testData →
      testData.take i ≠ [] ∧ scoredOutcome Q testData strategy i ≠ none) := by
  refine ⟨?_, ?_, ?_, ?_⟩
  · have := predictLoop_ne_nil P recentDigits 1 steps hsteps
    rw [MultiStepPredictor.predictNextN]
    exact Nat.one_le_iff_ne_zero.mpr (fun h => this (List.length_eq_zero.mp h))
  · intro j p hp
    have := predictLoop_step_eq P steps recentDigits 1 j p hp
    omega
  · intro p _
    exact Nat.lt_succ_iff.mp p.digit.isLt
  · intro Q testData strategy i hi
    have hmem := List.mem_range'_1.mp hi
    have h50 : 50 ≤ i := hmem.1
    have hlen : i < 50 + (testData.length - 51) := hmem.2
    have htdne : testData ≠ [] := by
      intro h
      rw [h] at hlen
      simp at hlen
      omega
    have htake : testData.take i ≠ [] := by
      rw [Ne, List.take_eq_nil_iff]
      push_neg
      exact ⟨by omega, htdne⟩
    refine ⟨htake, ?_⟩
    have hnn := predictLoop_ne_nil Q (testData.take i) 1 1 (le_refl 1)
    rcases hq : Q.predictNextN (testData.take i) 1 with _ | ⟨pr, rest⟩
    · exact absurd hq hnn
    · simp only [scoredOutcome]
      rw [hq]
      simp

/-- Witness for C9 at the predictor built from `[0, 1]`,
`recentDigits = [5]`, `steps = 5`, and the scored index 50 of a length-52
test sequence. -/
theorem c9_predictNextN_wellformed_witness :
    1 ≤ ((MultiStepPredictor.mk' [0, 1]).predictNextN [5] 5).length ∧
    ((List.replicate 52 (5 : Digit)).take 50 ≠ [] ∧
      scoredOutcome (MultiStepPredictor.mk' [0, 1]) (List.replicate 52 (5 : Digit))
        .matchDigit 50 ≠ none) :=
  ⟨(c9_predictNextN_wellformed (MultiStepPredictor.mk' [0, 1]) [5] 5 (by decide)
      (by decide)).1,
   (c9_predictNextN_wellformed (MultiStepPredictor.mk' [0, 1]) [5] 5 (by decide)
      (by decide)).2.2.2 (MultiStepPredictor.mk' [0, 1]) (List.replicate 52 5)
      .matchDigit 50 (by decide)⟩

/-! ### Claims C4 and C8: backtest structure -/

/-- `backtestStep`'s counter updates, characterised by `scoredOutcome`. -/
theorem backtestStep_counts (P : MultiStepPredictor) (testData : List Digit)
    (strategy : Strategy) (st : BacktestState) (i : ℕ) :
    (backtestStep P testData strategy st i).1 =
      st.1 + (if scoredOutcome P testData strategy i = some true then 1 else 0) ∧
    (backtestStep P testData strategy st i).2.1 =
      st.2.1 + (if scoredOutcome P testData strategy i = some false then 1 else 0) := by
  have hstep : backtestStep P testData strategy st i =
      backtestApply strategy (testData.getD i 0) st
        (P.predictNextN (testData.take i) 1) := rfl
  have hout : scoredOutcome P testData strategy i =
      (P.predictNextN (testData.take i) 1).head?.map
        (fun pr => strategyHit strategy pr.digit (testData.getD i 0)) := rfl
  rcases hq : P.predictNextN (testData.take i) 1 with _ | ⟨pr, rest⟩
  · rw [hstep, hout, hq]
    simp [backtestApply]
  · rw [hstep, hout, hq]
    cases strategy
    · by_cases hd : pr.digit = testData.getD i 0
      · simp [hd, strategyHit, backtestApply, -List.getD_eq_getElem?_getD]
      · simp [hd, strategyHit, backtestApply, -List.getD_eq_getElem?_getD]
    · by_cases hd : pr.digit = testData.getD i 0
      · simp [hd, strategyHit, backtestApply, -List.getD_eq_getElem?_getD]
      · simp [hd, strategyHit, backtestApply, -List.getD_eq_getElem?_getD]

theorem backtest_foldl_counts (P : MultiStepPredictor) (testData : List Digit)
    (strategy : Strategy) :
    ∀ (l : List ℕ) (st : BacktestState),
      (l.foldl (backtestStep P testData strategy) st).1 =
        st.1 + (l.filter (fun i => scoredOutcome P testData strategy i = some true)).length ∧
      (l.foldl (backtestStep P testData strategy) st).2.1 =
        st.2.1 + (l.filter (fun i => scoredOutcome P testData strategy i = some false)).length
  | [], st => by simp
  | i :: l, st => by
    rw [List.foldl_cons]
    obtain ⟨h1, h2⟩ := backtest_foldl_counts P testData strategy l
      (backtestStep P testData strategy st i)
    obtain ⟨hc1, hc2⟩ := backtestStep_counts P testData strategy st i
    constructor
    · rw [h1, hc1, List.filter_cons]
      by_cases ho : scoredOutcome P testData strategy i = some true
      · simp [ho]
        omega
      · simp [ho]
    · rw [h2, hc2, List.filter_cons]
      by_cases ho : scoredOutcome P testData strategy i = some false
      · simp [ho]
        omega
      · simp [ho]

/-- C4: for every predictor, test sequence and strategy, `backtest`
returns `trueNegatives = 0` and `falseNegatives = 0`, and the positive
counters only draw from the indices `50 ≤ i ≤ length − 2` of the sliding
window (history `testData.take i`, ground truth `testData[i]`): the first
50 observations are never scored. -/
theorem c4_backtest_zero_negatives (P : MultiStepPredictor) (testData : List Digit)
    (strategy : Strategy) :
    (backtest P testData strategy).trueNegatives = 0 ∧
    (backtest P testData strategy).falseNegatives = 0 ∧
    (backtest P testData strategy).truePositives =
      ((backtestIndices testData).filter
        (fun i => scoredOutcome P testData strategy i = some true)).length ∧
    (backtest P testData strategy).falsePositives =
      ((backtestIndices testData).filter
        (fun i => scoredOutcome P testData strategy i = some false)).length ∧
    backtestIndices testData = List.range' 50 (testData.length - 51) ∧
    (∀ i ∈ backtestIndices testData, 50 ≤ i ∧ i + 1 < testData.length) := by
  obtain ⟨h1, h2⟩ := backtest_foldl_counts P testData strategy (backtestIndices testData)
    (0, 0, 0)
  refine ⟨rfl, rfl, by simpa using h1, by simpa using h2, rfl, ?_⟩
  intro i hi
  have hmem := List.mem_range'_1.mp hi
  omega

/-- Witness for C4's index-bound component at a concrete instance. -/
theorem c4_backtest_zero_negatives_witness :
    (backtest (MultiStepPredictor.mk' [0, 1]) (List.replicate 52 (5 : Digit))
      .matchDigit).trueNegatives = 0 ∧
    (50 ≤ 50 ∧ 50 + 1 < (List.replicate 52 (5 : Digit)).length) :=
  ⟨(c4_backtest_zero_negatives (MultiStepPredictor.mk' [0, 1])
      (List.replicate 52 (5 : Digit)) .matchDigit).1,
   (c4_backtest_zero_negatives (MultiStepPredictor.mk' [0, 1])
      (List.replicate 52 (5 : Digit)) .matchDigit).2.2.2.2.2 50 (by decide)⟩

/-- A hit under the `match` strategy adds one true positive and +0.95. -/
theorem backtestStep_match_hit (P : MultiStepPredictor) (testData : List Digit)
    (st : BacktestState) (i : ℕ)
    (h : scoredOutcome P testData .matchDigit i = some true) :
    backtestStep P testData .matchDigit st i = (st.1 + 1, st.2.1, st.2.2 + 0.95) := by
  have hout : scoredOutcome P testData .matchDigit i =
      (P.predictNextN (testData.take i) 1).head?.map
        (fun pr => strategyHit .matchDigit pr.digit (testData.getD i 0)) := rfl
  have hstep : backtestStep P testData .matchDigit st i =
      backtestApply .matchDigit (testData.getD i 0) st
        (P.predictNextN (testData.take i) 1) := rfl
  rcases hq : P.predictNextN (testData.take i) 1 with _ | ⟨pr, rest⟩
  · rw [hout, hq] at h
    simp at h
  · rw [hout, hq] at h
    simp only [List.head?_cons, Option.map_some', Option.some_inj] at h
    have hd : pr.digit = testData.getD i 0 := by
      simpa [strategyHit] using h
    rw [hstep, hq]
    simp [backtestApply, hd, -List.getD_eq_getElem?_getD]

theorem backtest_foldl_all_hits (P : MultiStepPredictor) (testData : List Digit) :
    ∀ (l : List ℕ) (st : BacktestState),
      (∀ i ∈ l, scoredOutcome P testData .matchDigit i = some true) →
      l.foldl (backtestStep P testData .matchDigit) st =
        (st.1 + l.length, st.2.1, st.2.2 + 0.95 * l.length)
  | [], st, _ => by simp
  | i :: l, st, h => by
    rw [List.foldl_cons, backtestStep_match_hit P testData st i (h i (List.mem_cons_self i l)),
      backtest_foldl_all_hits P testData l _ (fun j hj => h j (List.mem_cons_of_mem i hj))]
    refine Prod.ext ?_ (Prod.ext ?_ ?_)
    · simp
      omega
    · rfl
    · simp
      ring

/-- C8: for `testData` the constant digit 3 with length `n ≥ 60` and a
predictor that always predicts 3 on the scored histories, the `match`
strategy yields `truePositives` = number of scored iterations
(`n − 51`), `falsePositives = 0`, `accuracy = 100`, and
`profitLoss = 0.95 ×` the scored count. -/
theorem c8_constant_three_backtest (P : MultiStepPredictor) (n : ℕ) (hn : 60 ≤ n)
    (hp : ∀ i ∈ List.range' 50 (n - 51),
      (P.predictNextN (List.replicate i (3 : Digit)) 1).map (fun p => p.digit) = [3]) :
    (backtest P (List.replicate n (3 : Digit)) .matchDigit).truePositives = n - 51 ∧
    (backtest P (List.replicate n (3 : Digit)) .matchDigit).falsePositives = 0 ∧
    (backtest P (List.replicate n (3 : Digit)) .matchDigit).accuracy = 100 ∧
    (backtest P (List.replicate n (3 : Digit)) .matchDigit).profitLoss =
      0.95 * ((n : ℚ) - 51) := by
  set td := List.replicate n (3 : Digit) with htd
  have hlen : td.length = n := List.length_replicate n 3
  have hidx : backtestIndices td = List.range' 50 (n - 51) := by
    rw [backtestIndices, hlen]
  have hall : ∀ i ∈ backtestIndices td,
      scoredOutcome P td .matchDigit i = some true := by
    intro i hi
    rw [hidx] at hi
    have hmem := List.mem_range'_1.mp hi
    have hilt : i < n := by omega
    have htake : td.take i = List.replicate i (3 : Digit) := by
      rw [htd, List.take_replicate, min_eq_left (le_of_lt hilt)]
    have hact : td.getD i 0 = 3 := by
      rw [htd, List.getD_eq_getElem?_getD, List.getElem?_replicate, if_pos hilt]
      rfl
    have hpi := hp i hi
    have hout : scoredOutcome P td .matchDigit i =
        (P.predictNextN (td.take i) 1).head?.map
          (fun pr => strategyHit .matchDigit pr.digit (td.getD i 0)) := rfl
    rcases hq : P.predictNextN (List.replicate i (3 : Digit)) 1 with _ | ⟨pr, rest⟩
    · rw [hq] at hpi
      simp at hpi
    · rw [hq] at hpi
      simp only [List.map_cons, List.cons.injEq, List.map_eq_nil_iff] at hpi
      rw [hout, htake, hq]
      simp [strategyHit, hact, hpi.1, -List.getD_eq_getElem?_getD]
  have hfold := backtest_foldl_all_hits P td (backtestIndices td) (0, 0, 0) hall
  have hcount : (backtestIndices td).length = n - 51 := by
    rw [hidx]
    simp
  rw [hcount] at hfold
  have h51 : (0 : ℚ) < ((n - 51 : ℕ) : ℚ) := by
    have h : 0 < n - 51 := by omega
    exact_mod_cast h
  refine ⟨?_, ?_, ?_, ?_⟩
  · show ((backtestIndices td).foldl (backtestStep P td .matchDigit) (0, 0, 0)).1 = n - 51
    rw [hfold]
    simp
  · show ((backtestIndices td).foldl (backtestStep P td .matchDigit) (0, 0, 0)).2.1 = 0
    rw [hfold]
  · simp only [backtest]
    rw [hfold]
    push_cast
    simp only [zero_add, add_zero]
    rw [div_self (ne_of_gt h51), one_mul]
  · simp only [backtest]
    rw [hfold]
    have hcast : ((n - 51 : ℕ) : ℚ) = (n : ℚ) - 51 := by
      push_cast [Nat.cast_sub (by omega : 51 ≤ n)]
      ring
    simp [hcast]

set_option maxRecDepth 200000 in
/-- Witness for C8 at `n = 60` and the predictor built from `[0, 1]`
(which predicts 3 on every all-3 history: no stored pattern matches, the
Markov row of 3 is all zeros, and the frequency term makes 3 the unique
argmax). -/
theorem c8_constant_three_backtest_witness :
    (backtest (MultiStepPredictor.mk' [0, 1]) (List.replicate 60 (3 : Digit))
      .matchDigit).truePositives = 9 ∧
    (backtest (MultiStepPredictor.mk' [0, 1]) (List.replicate 60 (3 : Digit))
      .matchDigit).profitLoss = 0.95 * ((60 : ℚ) - 51) := by
  have h := c8_constant_three_backtest (MultiStepPredictor.mk' [0, 1]) 60 (by norm_num)
    (by decide)
  exact ⟨h.1, h.2.2.2⟩

/-! ### Claim C2: ensemble argmax with lowest-digit tie-breaking -/

/-- Splitting `map g` over `finRange 10` around an element recovers its
digit as the position, and every smaller digit's image lies in the
prefix. -/
theorem map_finRange_split {α : Type} (g : Digit → α) (l1 l2 : List α) (c : α)
    (h : (List.finRange 10).map g = l1 ++ c :: l2) :
    (∃ hlt : l1.length < 10, c = g ⟨l1.length, hlt⟩) ∧
    ∀ d : Digit, d.val < l1.length → g d ∈ l1 := by
  have hlen10 : (l1 ++ c :: l2).length = 10 := by
    rw [← h]
    simp
  have hsum : l1.length + (l2.length + 1) = 10 := by
    simpa [Nat.add_comm, Nat.add_left_comm, Nat.add_assoc] using hlen10
  have hl1 : l1.length < 10 := by omega
  have hmap : ∀ (j : ℕ) (hj : j < 10) (_ : j < ((List.finRange 10).map g).length),
      ((List.finRange 10).map g)[j] = g ⟨j, hj⟩ := by
    intro j hj hb
    rw [List.getElem_map]
    congr 1
    apply Fin.ext
    simp [List.getElem_finRange]
  constructor
  · refine ⟨hl1, ?_⟩
    have hb1 : l1.length < ((List.finRange 10).map g).length := by simpa using hl1
    have h1 : ((List.finRange 10).map g)[l1.length] = c := by
      simp only [h]
      rw [List.getElem_append_right (le_refl l1.length)]
      simp
    rw [hmap l1.length hl1 hb1] at h1
    exact h1.symm
  · intro d hd
    have h2 : ((List.finRange 10).map g)[d.val]? = some (g d) := by
      have hb2 : d.val < ((List.finRange 10).map g).length := by simp
      rw [List.getElem?_eq_getElem hb2, hmap d.val d.isLt hb2]
    rw [h, List.getElem?_append_left hd] at h2
    exact List.getElem?_mem h2

/-- The prediction `stepPredict` emits is the ensemble argmax, exact ties
resolved in favour of the lowest digit, and its reported probability is
that digit's ensemble score. -/
theorem stepPredict_argmax (P : MultiStepPredictor) (cur : List Digit) (s : ℕ) :
    (stepPredict P cur s).probability = ensembleScore P cur (stepPredict P cur s).digit ∧
    (∀ d : Digit, ensembleScore P cur d ≤ (stepPredict P cur s).probability) ∧
    (∀ d : Digit, ensembleScore P cur d = (stepPredict P cur s).probability →
      (stepPredict P cur s).digit ≤ d) := by
  rcases hs : sortByKeyDesc (fun e : Digit × ℚ => e.2) (ensembleScores P cur)
    with _ | ⟨c, rest⟩
  · have := congrArg List.length hs
    rw [(perm_sortByKeyDesc _ _).length_eq] at this
    simp [ensembleScores] at this
  · have hdig : (stepPredict P cur s).digit = c.1 := by
      rw [stepPredict]
      simp only [hs, List.headD_cons]
    have hprob : (stepPredict P cur s).probability = c.2 := by
      rw [stepPredict]
      simp only [hs, List.headD_cons]
    have hcmem : c ∈ ensembleScores P cur :=
      (perm_sortByKeyDesc _ _).subset (hs ▸ List.mem_cons_self c rest)
    obtain ⟨d', _, hd'⟩ := List.mem_map.mp hcmem
    have hc1 : c.1 = d' := by rw [← hd']
    have hc2 : c.2 = ensembleScore P cur c.1 := by
      rw [hc1, ← hd']
    have hmax : ∀ d : Digit, ensembleScore P cur d ≤ c.2 := by
      intro d
      exact head_sortByKeyDesc_max (fun e : Digit × ℚ => e.2) hs
        (d, ensembleScore P cur d)
        (List.mem_map.mpr ⟨d, List.mem_finRange d, rfl⟩)
    refine ⟨by rw [hprob, hdig, hc2], fun d => by rw [hprob]; exact hmax d, ?_⟩
    intro d hd
    rw [hprob] at hd
    obtain ⟨l1, l2, hsplit, hne⟩ := head_sortByKeyDesc_first
      (fun e : Digit × ℚ => e.2) hs
    obtain ⟨⟨hlt, hc⟩, hpre⟩ := map_finRange_split
      (fun d => (d, ensembleScore P cur d)) l1 l2 c hsplit
    rw [hdig]
    by_contra hdc
    push_neg at hdc
    have hcval : c.1.val = l1.length := by rw [hc]
    have hdlt2 : d.val < c.1.val := Fin.lt_iff_val_lt_val.mp hdc
    have hdval : d.val < l1.length := by omega
    have hmem1 : (d, ensembleScore P cur d) ∈ l1 := hpre d hdval
    exact hne _ hmem1 hd

/-- The prediction at position `j` of the loop's output is `stepPredict`
of the working sequence at that step: the initial sequence extended by
exactly the digits emitted at the `j` previous steps (the self-feeding
`currentDigits.push(predictedDigit)`). -/
theorem predictLoop_get_workingSeq (P : MultiStepPredictor) :
    ∀ (r : ℕ) (cur : List Digit) (s j : ℕ) (p : MultiStepPrediction),
      (predictLoop P cur s r).get? j = some p →
      p = stepPredict P
        (cur ++ ((predictLoop P cur s r).take j).map (fun q => q.digit)) (s + j)
  | 0, cur, s, j, p => by simp [predictLoop]
  | r + 1, cur, s, j, p => by
    rw [predictLoop]
    by_cases h : (stepPredict P cur s).confidence = ConfidenceLevel.low ∧ 3 ≤ s
    · rw [if_pos h]
      match j with
      | 0 =>
        intro hp
        rw [← Option.some_inj.mp hp]
        simp
      | j + 1 => simp
    · rw [if_neg h]
      match j with
      | 0 =>
        intro hp
        rw [← Option.some_inj.mp hp]
        simp
      | j + 1 =>
        intro hp
        have ih := predictLoop_get_workingSeq P r (cur ++ [(stepPredict P cur s).digit])
          (s + 1) j p (by simpa using hp)
        rw [List.take_succ_cons, List.map_cons, List.append_cons,
          show s + (j + 1) = s + 1 + j from by omega]
        exact ih

/-- C2: at every step of `predictNextN` — the prediction at position `j`
of the output carries step number `j + 1` and its working sequence is
`recentDigits` extended by exactly the digits emitted at the previous
`j` steps — the ensemble score of each digit over that working sequence
is `pattern × 0.5 + markov × 0.35 + frequency × 0.15` (pattern weight 0
when no pattern matches), and the emitted prediction carries the digit
with the maximum ensemble score over that very working sequence — exact
ties resolved in favour of the lowest digit — with that score as its
probability. -/
theorem c2_ensemble_weighting_and_argmax (P : MultiStepPredictor)
    (recentDigits : List Digit) (steps : ℕ) (_hne : recentDigits ≠ []) :
    (∀ (cur : List Digit) (d : Digit),
      ensembleScore P cur d =
        (P.patternRecognizer.predictNext cur).2 d * 0.5 +
          P.markovChain (cur.getLastD 0) d * 0.35 +
          MultiStepPredictor.analyzeFrequency cur d * 0.15) ∧
    (∀ (j : ℕ) (p : MultiStepPrediction),
      (P.predictNextN recentDigits steps).get? j = some p →
      p.step = j + 1 ∧
      p.probability = ensembleScore P
        (recentDigits ++
          ((P.predictNextN recentDigits steps).take j).map (fun q => q.digit)) p.digit ∧
      (∀ d : Digit,
        ensembleScore P
          (recentDigits ++
            ((P.predictNextN recentDigits steps).take j).map (fun q => q.digit)) d ≤
          p.probability) ∧
      (∀ d : Digit,
        ensembleScore P
          (recentDigits ++
            ((P.predictNextN recentDigits steps).take j).map (fun q => q.digit)) d =
          p.probability → p.digit ≤ d)) := by
  refine ⟨fun cur d => rfl, fun j p hp => ?_⟩
  have hstep := predictLoop_step_eq P steps recentDigits 1 j p hp
  have hw : p = stepPredict P
      (recentDigits ++
        ((P.predictNextN recentDigits steps).take j).map (fun q => q.digit)) (1 + j) :=
    predictLoop_get_workingSeq P steps recentDigits 1 j p hp
  obtain ⟨h1, h2, h3⟩ := stepPredict_argmax P
    (recentDigits ++ ((P.predictNextN recentDigits steps).take j).map (fun q => q.digit))
    (1 + j)
  rw [← hw] at h1 h2 h3
  exact ⟨by omega, h1, h2, h3⟩

/-- Witness for C2 at the predictor built from `[0, 1]`,
`recentDigits = [5]`, `steps = 1`, position `j = 0` (working sequence
`[5]`): the emitted prediction is digit 5 with ensemble score 15, the
maximum over `[5]`. -/
theorem c2_ensemble_weighting_and_argmax_witness :
    (15 : ℚ) = ensembleScore (MultiStepPredictor.mk' [0, 1]) [5] 5 ∧
    (∀ d : Digit, ensembleScore (MultiStepPredictor.mk' [0, 1]) [5] d ≤ 15) :=
  have h := (c2_ensemble_weighting_and_argmax (MultiStepPredictor.mk' [0, 1]) [5] 1
    (by decide)).2 0
    { step := 1, digit := 5, probability := 15, confidence := .low,
      method := "Ensemble (Pattern + Markov + Frequency)" }
    (by decide)
  ⟨h.2.1, h.2.2.1⟩

/-! ### Claim C3: the `train` confidence/frequency/lastSeen invariant -/

theorem tableGet_modify (t : PatternTable) (key : List Digit) (i : ℕ) (k : List Digit) :
    tableGet (t.map fun e => if e.1 = key then (e.1, bumpPattern e.2 i) else e) k =
      if k = key then (tableGet t key).map (fun p => bumpPattern p i)
      else tableGet t k := by
  induction t with
  | nil =>
    by_cases hk : k = key
    · simp [tableGet, hk]
    · simp [tableGet, hk]
  | cons e t ih =>
    by_cases he : e.1 = key
    · by_cases hk : k = key
      · subst hk
        simp [tableGet, he, ih]
      · have hek : ¬ e.1 = k := fun h => hk (h ▸ he)
        simp only [List.map_cons, if_pos he, tableGet, hek, if_neg hek, if_neg hk, ih]
        simp
    · by_cases hk : k = key
      · subst hk
        have hek : ¬ e.1 = k := he
        simp only [List.map_cons, if_neg he, tableGet, if_neg hek, ih]
      · simp only [List.map_cons, if_neg he, tableGet, ih, if_neg hk]

theorem tableGet_append_single (t : PatternTable) (key : List Digit) (q : Pattern)
    (k : List Digit) :
    tableGet (t ++ [(key, q)]) k =
      match tableGet t k with
      | some p => some p
      | none => if key = k then some q else none := by
  induction t with
  | nil => simp [tableGet]
  | cons e t ih =>
    by_cases he : e.1 = k
    · simp [tableGet, he]
    · simp [tableGet, he, ih]

theorem tableGet_trainUpsert (t : PatternTable) (key : List Digit) (i : ℕ) (k : List Digit) :
    tableGet (trainUpsert t key i) k =
      if k = key then
        some (match tableGet t key with
              | some p => bumpPattern p i
              | none => freshPattern key i)
      else tableGet t k := by
  rw [trainUpsert]
  by_cases hc : (tableGet t key).isSome
  · rw [if_pos hc, tableGet_modify]
    by_cases hk : k = key
    · obtain ⟨p, hp⟩ := Option.isSome_iff_exists.mp hc
      simp [hk, hp]
    · simp [hk]
  · have hnone : tableGet t key = none := Option.not_isSome_iff_eq_none.mp hc
    rw [if_neg hc, tableGet_append_single]
    by_cases hk : k = key
    · subst hk
      simp [hnone]
    · have hkey : ¬ key = k := fun h => hk h.symm
      cases htk : tableGet t k
      · simp [hkey, hk]
      · simp [hk]

/-- Running the window loop on the first `m` start indices accumulates,
for a key not present initially, exactly the occurrence count and the
most recent occurrence index among those `m` windows. -/
theorem tableGet_trainWindow_aux (digits : List Digit) (ws : ℕ) (t : PatternTable)
    (k : List Digit) (h0 : tableGet t k = none) :
    ∀ m : ℕ,
      tableGet ((List.range m).foldl
          (fun t i => trainUpsert t ((digits.drop i).take ws) i) t) k =
        if ((List.range m).filter fun i => (digits.drop i).take ws = k) = [] then none
        else some { sequence := k,
                    frequency :=
                      ((List.range m).filter fun i => (digits.drop i).take ws = k).length,
                    confidence := 0,
                    lastSeen :=
                      ((List.range m).filter fun i => (digits.drop i).take ws = k).getLastD 0,
                    successRate := 0 }
  | 0 => by simpa using h0
  | m + 1 => by
    have ih := tableGet_trainWindow_aux digits ws t k h0 m
    rw [List.range_succ, List.foldl_append, List.foldl_cons, List.foldl_nil,
      tableGet_trainUpsert]
    by_cases hsl : (digits.drop m).take ws = k
    · have hfil : ((List.range m ++ [m]).filter fun i => (digits.drop i).take ws = k) =
          ((List.range m).filter fun i => (digits.drop i).take ws = k) ++ [m] := by
        rw [List.filter_append]
        simp [hsl]
      rw [if_pos hsl.symm, hsl, ih, hfil]
      by_cases hocc : ((List.range m).filter fun i => (digits.drop i).take ws = k) = []
      · rw [if_pos hocc, hocc]
        simp [freshPattern]
      · rw [if_neg hocc, if_neg (by simp : ¬ (((List.range m).filter
          fun i => (digits.drop i).take ws = k) ++ [m] = []))]
        simp [bumpPattern]
    · have hfil : ((List.range m ++ [m]).filter fun i => (digits.drop i).take ws = k) =
          (List.range m).filter fun i => (digits.drop i).take ws = k := by
        rw [List.filter_append]
        simp [hsl]
      rw [if_neg (fun h : k = (digits.drop m).take ws => hsl h.symm), hfil]
      exact ih

/-- `trainWindow` for the key's own window size, starting from a table
without the key. -/
theorem tableGet_trainWindow (digits : List Digit) (ws : ℕ) (t : PatternTable)
    (k : List Digit) (h0 : tableGet t k = none) (hlen : k.length = ws) :
    tableGet (trainWindow digits ws t) k =
      if occList digits k = [] then none
      else some { sequence := k, frequency := (occList digits k).length, confidence := 0,
                  lastSeen := (occList digits k).getLastD 0, successRate := 0 } := by
  subst hlen
  rw [trainWindow]
  exact tableGet_trainWindow_aux digits k.length t k h0 (digits.length + 1 - k.length)

/-- A window pass never touches keys of a different length. -/
theorem tableGet_trainWindow_ne_aux (digits : List Digit) (ws : ℕ) (t : PatternTable)
    (k : List Digit) (hlen : k.length ≠ ws) :
    ∀ m : ℕ, m + ws ≤ digits.length + 1 →
      tableGet ((List.range m).foldl
        (fun t i => trainUpsert t ((digits.drop i).take ws) i) t) k = tableGet t k
  | 0, _ => rfl
  | m + 1, hm => by
    rw [List.range_succ, List.foldl_append, List.foldl_cons, List.foldl_nil,
      tableGet_trainUpsert]
    have hslice : ((digits.drop m).take ws).length = ws := by
      simp only [List.length_take, List.length_drop]
      omega
    rw [if_neg (fun hk : k = (digits.drop m).take ws => hlen (by rw [hk, hslice]))]
    exact tableGet_trainWindow_ne_aux digits ws t k hlen m (by omega)

theorem tableGet_trainWindow_ne (digits : List Digit) (ws : ℕ) (t : PatternTable)
    (k : List Digit) (hlen : k.length ≠ ws) :
    tableGet (trainWindow digits ws t) k = tableGet t k := by
  rw [trainWindow]
  by_cases hws : ws ≤ digits.length + 1
  · exact tableGet_trainWindow_ne_aux digits ws t k hlen (digits.length + 1 - ws) (by omega)
  · have hz : digits.length + 1 - ws = 0 := by omega
    rw [hz]
    rfl

theorem tableGet_confidencePass (t : PatternTable) (n : ℚ) (k : List Digit) :
    tableGet (confidencePass t n) k = (tableGet t k).map fun p =>
      { p with confidence := ((p.frequency : ℚ) / n * 1000) * 0.6 +
          ((p.lastSeen : ℚ) / n * 100) * 0.4 } := by
  induction t with
  | nil => rfl
  | cons e t ih =>
    by_cases he : e.1 = k
    · simp [confidencePass, tableGet, he]
    · simp only [confidencePass, List.map_cons] at ih ⊢
      simp [tableGet, he, ih]

/-- The four window passes of `train` on a fresh recognizer, combined:
a key is stored iff its length is one of the window sizes and it occurs,
and then it carries its occurrence count and most recent start index. -/
theorem tableGet_train_passes (digits : List Digit) (key : List Digit) :
    tableGet (trainWindow digits 5 (trainWindow digits 4 (trainWindow digits 3
        (trainWindow digits 2 [])))) key =
      if key.length = 2 ∨ key.length = 3 ∨ key.length = 4 ∨ key.length = 5 then
        if occList digits key = [] then none
        else some { sequence := key, frequency := (occList digits key).length,
                    confidence := 0, lastSeen := (occList digits key).getLastD 0,
                    successRate := 0 }
      else none := by
  by_cases h2 : key.length = 2
  · rw [tableGet_trainWindow_ne digits 5 _ key (by omega),
      tableGet_trainWindow_ne digits 4 _ key (by omega),
      tableGet_trainWindow_ne digits 3 _ key (by omega),
      tableGet_trainWindow digits 2 [] key rfl h2,
      if_pos (Or.inl h2)]
  · by_cases h3 : key.length = 3
    · have h0 : tableGet (trainWindow digits 2 []) key = none := by
        rw [tableGet_trainWindow_ne digits 2 [] key (by omega)]
        rfl
      rw [tableGet_trainWindow_ne digits 5 _ key (by omega),
        tableGet_trainWindow_ne digits 4 _ key (by omega),
        tableGet_trainWindow digits 3 _ key h0 h3,
        if_pos (Or.inr (Or.inl h3))]
    · by_cases h4 : key.length = 4
      · have h0 : tableGet (trainWindow digits 3 (trainWindow digits 2 [])) key = none := by
          rw [tableGet_trainWindow_ne digits 3 _ key (by omega),
            tableGet_trainWindow_ne digits 2 [] key (by omega)]
          rfl
        rw [tableGet_trainWindow_ne digits 5 _ key (by omega),
          tableGet_trainWindow digits 4 _ key h0 h4,
          if_pos (Or.inr (Or.inr (Or.inl h4)))]
      · by_cases h5 : key.length = 5
        · have h0 : tableGet (trainWindow digits 4 (trainWindow digits 3
              (trainWindow digits 2 []))) key = none := by
            rw [tableGet_trainWindow_ne digits 4 _ key (by omega),
              tableGet_trainWindow_ne digits 3 _ key (by omega),
              tableGet_trainWindow_ne digits 2 [] key (by omega)]
            rfl
          rw [tableGet_trainWindow digits 5 _ key h0 h5,
            if_pos (Or.inr (Or.inr (Or.inr h5)))]
        · rw [tableGet_trainWindow_ne digits 5 _ key (by omega),
            tableGet_trainWindow_ne digits 4 _ key (by omega),
            tableGet_trainWindow_ne digits 3 _ key (by omega),
            tableGet_trainWindow_ne digits 2 [] key (by omega),
            if_neg (by omega)]
          rfl

/-- C3: after `train(digits)` on a fresh recognizer with corpus length
`n`, every stored pattern's `frequency` is its total occurrence count,
its `lastSeen` is the starting index of its most recent occurrence, and
`confidence = 0.6 × (frequency / n × 1000) + 0.4 × (lastSeen / n × 100)`. -/
theorem c3_train_pattern_invariant (digits : List Digit) (key : List Digit) (p : Pattern)
    (h : tableGet (NeuralPatternRecognizer.init.train digits).patterns key = some p) :
    p.sequence = key ∧
    p.frequency = (occList digits key).length ∧
    occList digits key ≠ [] ∧
    p.lastSeen = (occList digits key).getLastD 0 ∧
    p.confidence =
      0.6 * ((p.frequency : ℚ) / (digits.length : ℚ) * 1000) +
        0.4 * ((p.lastSeen : ℚ) / (digits.length : ℚ) * 100) := by
  have htrain : (NeuralPatternRecognizer.init.train digits).patterns =
      confidencePass
        (trainWindow digits 5 (trainWindow digits 4 (trainWindow digits 3
          (trainWindow digits 2 []))))
        (digits.length : ℚ) := rfl
  rw [htrain, tableGet_confidencePass] at h
  obtain ⟨q, hq, hpq⟩ := Option.map_eq_some'.mp h
  rw [tableGet_train_passes] at hq
  by_cases hw : key.length = 2 ∨ key.length = 3 ∨ key.length = 4 ∨ key.length = 5
  · rw [if_pos hw] at hq
    by_cases hocc : occList digits key = []
    · rw [if_pos hocc] at hq
      exact absurd hq (by simp)
    · rw [if_neg hocc] at hq
      have hqV := Option.some_inj.mp hq
      rw [← hpq, ← hqV]
      refine ⟨rfl, rfl, hocc, rfl, ?_⟩
      show ((((occList digits key).length : ℚ) / (digits.length : ℚ) * 1000) * 0.6 +
          (((occList digits key).getLastD 0 : ℚ) / (digits.length : ℚ) * 100) * 0.4) = _
      ring
  · rw [if_neg hw] at hq
    exact absurd hq (by simp)

/-- Witness for C3 at the corpus `[1, 2, 1, 2]` and key `[1, 2]`:
frequency 2, lastSeen 2, confidence
`0.6 × (2/4 × 1000) + 0.4 × (2/4 × 100) = 320`. -/
theorem c3_train_pattern_invariant_witness :
    ({ sequence := [1, 2], frequency := 2, confidence := 320, lastSeen := 2,
       successRate := 0 } : Pattern).frequency =
        (occList [1, 2, 1, 2] [1, 2]).length ∧
    ({ sequence := [1, 2], frequency := 2, confidence := 320, lastSeen := 2,
       successRate := 0 } : Pattern).confidence =
      0.6 * ((2 : ℚ) / 4 * 1000) + 0.4 * ((2 : ℚ) / 4 * 100) :=
  ⟨(c3_train_pattern_invariant [1, 2, 1, 2] [1, 2] _ (by decide)).2.1,
   (c3_train_pattern_invariant [1, 2, 1, 2] [1, 2]
      { sequence := [1, 2], frequency := 2, confidence := 320, lastSeen := 2,
        successRate := 0 } (by decide)).2.2.2.2⟩
